import Mathlib

/-!
Verification development for the promptgen command-line template manager
(promptgen.go).

The program persists templates as JSON files in a single directory:
a latest-pointer file `NAME.json`, one immutable file `NAME_vK.json` per
version `K`, and a history file `history.log`.  We model the directory as
an association list from file names to file contents, strings as `List Char`,
and each Go function as a Lean function over that store:

* `addTemplate`, `updateTemplate`, `deleteTemplate`, `listTemplates`,
  `listVersions`, `loadTemplate`, `reviewTemplate`, `generatePrompt`
  translate the functions of the same names in promptgen.go;
* glob patterns (`name*.json`, `name_v*.json`, `*.json`) are translated to
  the corresponding tests on rendered file names;
* the `text/template` substitution pipeline of `generatePrompt`
  (ReplaceAll of `<input>` by a field action, then parse and execute) is
  translated by `replacePh`, `scan` and `execPieces`; the parser models the
  fragment of the Go template language that the program exercises: plain
  text, and `.Field` actions between the `\x7b\x7b` and `\x7d\x7d`
  delimiters (any other action content is a parse error, as it is for the
  actions the program can encounter); executing a field other than `Input`
  on the data map renders the text `<no value>`, Go's default for a
  missing map key;
* the clipboard and external-editor capabilities are oracles (`Caps`), and
  `Trace` records which of them an invocation used;
* file contents are either a parsed template record (`FileData.tpl`,
  JSON that unmarshals) or unparseable bytes (`FileData.raw`).

`Nat.repr`-style decimal rendering of version numbers is modelled by
`natStr`, a fuelled decimal printer.
-/

/-- Strings are modelled as lists of characters. -/
abbrev Str := List Char

/-- Notation-free shorthand for string literals used in concrete stores. -/
def str (s : String) : Str := s.toList

/-- A stored template record (the JSON object promptgen marshals). -/
structure PromptTemplate where
  name : Str
  version : Nat
  template : Str
  deriving DecidableEq

/-- Content of one file of the template directory: a record that
json.Unmarshal accepts, or raw bytes that fail to parse. -/
inductive FileData where
  | tpl (t : PromptTemplate)
  | raw (s : Str)
  deriving DecidableEq

/-- The template directory: file name to file content, unique keys. -/
abbrev Store := List (Str × FileData)

/-- Keys (file names) of a store. -/
def keys (s : Store) : List Str := s.map Prod.fst

/-- os.ReadFile: the content stored under a file name, if present. -/
def readFile : Store → Str → Option FileData
  | [], _ => none
  | (g, e) :: rest, f => if g = f then some e else readFile rest f

/-- os.WriteFile: create or overwrite a file. -/
def writeFile : Store → Str → FileData → Store
  | [], f, d => [(f, d)]
  | (g, e) :: rest, f, d => if g = f then (f, d) :: rest else (g, e) :: writeFile rest f d

/-- Does the pattern string lead (start) the subject string? -/
def leadsWith : Str → Str → Bool
  | [], _ => true
  | _ :: _, [] => false
  | p :: ps, c :: cs => if p = c then leadsWith ps cs else false

/-- Does the subject string end with the pattern string? -/
def endsWith (pat s : Str) : Bool := leadsWith pat.reverse s.reverse

/-- Does the pattern occur as a contiguous substring (strings.Contains)? -/
def hasSub (pat : Str) : Str → Bool
  | [] => leadsWith pat []
  | c :: cs => leadsWith pat (c :: cs) || hasSub pat cs

/-- strings.TrimSuffix. -/
def trimSuffix (s pat : Str) : Str :=
  if endsWith pat s then s.take (s.length - pat.length) else s

/-- The ASCII white-space test of strings.TrimSpace. -/
def isSpaceGo (c : Char) : Bool :=
  c = ' ' || c = '\t' || c = '\n' || c = '\x0b' || c = '\x0c' || c = '\r'

/-- strings.TrimSpace. -/
def trimSpace (s : Str) : Str :=
  ((s.dropWhile isSpaceGo).reverse.dropWhile isSpaceGo).reverse

/-- One decimal digit step of the %d verb. -/
def natStrAux : Nat → Nat → Str
  | 0, _ => []
  | fuel + 1, n =>
    if n < 10 then [Nat.digitChar n]
    else natStrAux fuel (n / 10) ++ [Nat.digitChar (n % 10)]

/-- Decimal rendering of a natural number (the %d verb of Sprintf). -/
def natStr (n : Nat) : Str := natStrAux (n + 1) n

/-- The ".json" extension. -/
def jsonExt : Str := str ".json"

/-- The "_v" separator of versioned file names. -/
def vSep : Str := str "_v"

/-- getTemplatePath: the latest-pointer file name NAME.json. -/
def latestPath (name : Str) : Str := name ++ jsonExt

/-- getTemplateVersionPath: the version file name NAME_vK.json. -/
def versionPath (name : Str) (version : Nat) : Str :=
  name ++ vSep ++ natStr version ++ jsonExt

/-- getHistoryPath: the history file name. -/
def historyPath : Str := str "history.log"

/-- The glob pattern NAME*.json used by deleteTemplate: the file name is
NAME, then anything, then ".json". -/
def deleteGlob (name f : Str) : Bool :=
  endsWith jsonExt f && leadsWith name (f.take (f.length - jsonExt.length))

/-- The glob pattern NAME_v*.json used by listVersions. -/
def versionsGlob (name f : Str) : Bool :=
  endsWith jsonExt f && leadsWith (name ++ vSep) (f.take (f.length - jsonExt.length))

/-- loadTemplate: read the latest-pointer file and unmarshal it. -/
def loadTemplate (s : Store) (name : Str) : Except Unit PromptTemplate :=
  match readFile s (latestPath name) with
  | none => .error ()
  | some (.raw _) => .error ()
  | some (.tpl t) => .ok t

/-- loadTemplateVersion: read a version file and unmarshal it. -/
def loadTemplateVersion (s : Store) (name : Str) (version : Nat) :
    Except Unit PromptTemplate :=
  match readFile s (versionPath name version) with
  | none => .error ()
  | some (.raw _) => .error ()
  | some (.tpl t) => .ok t

/-- Result of addTemplate. -/
inductive AddResult where
  | emptyName
  | alreadyExists
  | ok (s : Store)
  deriving DecidableEq

/-- addTemplate: trim the entered name, reject an empty name, reject a name
whose latest-pointer file exists (os.Stat), then write the version-1 file
and the latest-pointer file. -/
def addTemplate (s : Store) (nameLine content : Str) : AddResult :=
  let name := trimSpace nameLine
  if name = [] then .emptyName
  else if (readFile s (latestPath name)).isSome then .alreadyExists
  else
    let t : PromptTemplate := ⟨name, 1, content⟩
    .ok (writeFile (writeFile s (versionPath name 1) (.tpl t)) (latestPath name) (.tpl t))

/-- updateTemplate: load the latest record, increment its version, write the
new version file, then overwrite the latest pointer. -/
def updateTemplate (s : Store) (name content : Str) : Except Unit Store :=
  match loadTemplate s name with
  | .error _ => .error ()
  | .ok t =>
    let t2 : PromptTemplate := { t with version := t.version + 1, template := content }
    .ok (writeFile (writeFile s (versionPath name t2.version) (.tpl t2))
          (latestPath name) (.tpl t2))

/-- A sequence of updateTemplate calls, stopping at the first failure. -/
def applyUpdates (s : Store) (name : Str) : List Str → Except Unit Store
  | [] => .ok s
  | c :: cs =>
    match updateTemplate s name c with
    | .error e => .error e
    | .ok s2 => applyUpdates s2 name cs

/-- deleteTemplate: glob NAME*.json; report NotFound when nothing matches,
else remove every matching file. -/
def deleteTemplate (s : Store) (name : Str) : Except Unit Store :=
  if s.filter (fun fd => deleteGlob name fd.1) = [] then .error ()
  else .ok (s.filter (fun fd => !deleteGlob name fd.1))

/-- One listing row of listTemplates: files matching *.json whose base name
does not contain "_v" and whose content unmarshals contribute
(content name, content version); others are skipped. -/
def listEntry (fd : Str × FileData) : Option (Str × Nat) :=
  if endsWith jsonExt fd.1 && !hasSub vSep fd.1 then
    match fd.2 with
    | .tpl t => some (t.name, t.version)
    | .raw _ => none
  else none

/-- listTemplates: the rows printed for a store. -/
def listTemplates (s : Store) : List (Str × Nat) := s.filterMap listEntry

/-- strings.Split on the separator "_v". -/
def splitVs : Str → List Str
  | [] => [[]]
  | '_' :: 'v' :: rest => [] :: splitVs rest
  | c :: rest =>
    match splitVs rest with
    | [] => [[c]]
    | r :: rs => (c :: r) :: rs

/-- One row of listVersions: a file matching NAME_v*.json contributes the
text after "_v" when stripping ".json" and splitting on "_v" yields exactly
two parts; otherwise it is skipped. -/
def versionEntry (name f : Str) : Option Str :=
  if versionsGlob name f then
    match splitVs (trimSuffix f jsonExt) with
    | [_, b] => some b
    | _ => none
  else none

/-- listVersions: the version strings printed for a template name. -/
def listVersions (s : Store) (name : Str) : List Str :=
  (keys s).filterMap (versionEntry name)

/-- reviewTemplate shows the latest record (loadTemplate plus printing). -/
def reviewTemplate (s : Store) (name : Str) : Except Unit PromptTemplate :=
  loadTemplate s name

/-- The placeholder token of template content. -/
def placeholder : Str := str "<input>"

/-- The Go-template field action the placeholder is normalized to. -/
def goPh : Str := str "\x7b\x7b.Input\x7d\x7d"

/-- strings.ReplaceAll of the placeholder token "<input>" by a replacement,
left to right, non-overlapping. -/
def replacePh (rep : Str) : Str → Str
  | '<' :: 'i' :: 'n' :: 'p' :: 'u' :: 't' :: '>' :: rest => rep ++ replacePh rep rest
  | c :: rest => c :: replacePh rep rest
  | [] => []

/-- A parsed piece of a template: a text character or a field action. -/
inductive Piece where
  | chr (c : Char)
  | field (name : Str)
  deriving DecidableEq

/-- The body of an action: it must be a dot followed by a non-empty
alphanumeric identifier, as in the actions promptgen can produce; anything
else is a parse error (as it is in Go for the non-field actions that the
normalized templates of this program can contain). -/
def parseAction (a : Str) : Option Str :=
  match a with
  | '.' :: rest => if rest ≠ [] ∧ rest.all Char.isAlphanum then some rest else none
  | _ => none

/-- The template scanner: outside an action, text runs until the \x7b\x7b
delimiter; inside an action (second argument carries the accumulated action
text reversed), chars run until the \x7d\x7d delimiter; an unterminated
action is a parse error. -/
def scan : Str → Option Str → Except Unit (List Piece)
  | [], none => .ok []
  | [], some _ => .error ()
  | '\x7b' :: '\x7b' :: rest, none => scan rest (some [])
  | c :: rest, none => (scan rest none).map (fun ps => .chr c :: ps)
  | '\x7d' :: '\x7d' :: rest, some acc =>
    match parseAction acc.reverse with
    | some f => (scan rest none).map (fun ps => .field f :: ps)
    | none => .error ()
  | c :: rest, some acc => scan rest (some (c :: acc))

/-- template.Parse of a normalized template. -/
def parseTmpl (s : Str) : Except Unit (List Piece) := scan s none

/-- The data key bound to the resolved input. -/
def inputField : Str := str "Input"

/-- The text Go renders for a missing map key (default missingkey option). -/
def noValue : Str := str "<no value>"

/-- tmpl.Execute over the data map \x7b"Input": input\x7d: field actions
look the name up, a missing key renders as "<no value>". -/
def execPieces (ps : List Piece) (input : Str) : Str :=
  match ps with
  | [] => []
  | .chr c :: rest => c :: execPieces rest input
  | .field f :: rest =>
    (if f = inputField then input else noValue) ++ execPieces rest input

/-- The substitution pipeline of generatePrompt: normalize "<input>" to a
field action, parse, then execute with the resolved input. -/
def renderTemplate (content input : Str) : Except Unit Str :=
  match parseTmpl (replacePh goPh content) with
  | .error e => .error e
  | .ok ps => .ok (execPieces ps input)

/-- The external capabilities generate may consult: clipboard read and the
external editor; each either yields text or fails. -/
structure Caps where
  clipboard : Except Unit Str
  editor : Except Unit Str

/-- Which capabilities an invocation used. -/
structure Trace where
  usedEditor : Bool
  readClipboard : Bool
  deriving DecidableEq

/-- The errors of a generate invocation. -/
inductive GenErr where
  | notFound
  | clipboardUnavailable
  | inputUnavailable
  | templateError
  deriving DecidableEq

/-- The literal --clip argument. -/
def clipFlag : Str := str "--clip"

/-- The editor-to-clipboard fallback of generatePrompt. -/
def clipFallback (caps : Caps) : Except GenErr Str × Trace :=
  match caps.clipboard with
  | .ok c => (.ok c, ⟨true, true⟩)
  | .error _ => (.error .inputUnavailable, ⟨true, true⟩)

/-- Input resolution of generatePrompt: an argument equal to --clip reads
the clipboard; any other argument is the input verbatim; with no argument
the editor is invoked, falling back to the clipboard when it fails or
returns only white space. -/
def resolveInput (arg : Option Str) (caps : Caps) : Except GenErr Str × Trace :=
  match arg with
  | some a =>
    if a = clipFlag then
      match caps.clipboard with
      | .ok c => (.ok c, ⟨false, true⟩)
      | .error _ => (.error .clipboardUnavailable, ⟨false, true⟩)
    else (.ok a, ⟨false, false⟩)
  | none =>
    match caps.editor with
    | .ok e => if trimSpace e = [] then clipFallback caps else (.ok e, ⟨true, false⟩)
    | .error _ => clipFallback caps

/-- The tail of generatePrompt once the template and the input are at hand:
render and return the prompt; the store is returned unchanged because
generatePrompt writes no file (in particular nothing is appended to the
history log). -/
def genFinish (s : Store) (t : PromptTemplate) (input : Str) :
    Except GenErr (Str × Store) :=
  match renderTemplate t.template input with
  | .ok out => .ok (out, s)
  | .error _ => .error .templateError

/-- generatePrompt: load the template by its latest pointer, resolve the
input, substitute, and return the rendered prompt together with the store
it leaves behind and the capability trace. -/
def generatePrompt (s : Store) (name : Str) (arg : Option Str) (caps : Caps) :
    Except GenErr (Str × Store) × Trace :=
  match loadTemplate s name with
  | .error _ => (.error .notFound, ⟨false, false⟩)
  | .ok t =>
    match resolveInput arg caps with
    | (.error e, tr) => (.error e, tr)
    | (.ok input, tr) => (genFinish s t input, tr)

theorem leadsWith_self_append (p t : Str) : leadsWith p (p ++ t) = true := by
  induction p with
  | nil => rfl
  | cons c cs ih => simp [leadsWith, ih]

theorem leadsWith_iff {p s : Str} : leadsWith p s = true ↔ ∃ t, s = p ++ t := by
  constructor
  · intro h
    induction p generalizing s with
    | nil => exact ⟨s, rfl⟩
    | cons c cs ih =>
      cases s with
      | nil => simp [leadsWith] at h
      | cons d ds =>
        simp only [leadsWith] at h
        split at h
        · obtain ⟨t, ht⟩ := ih h
          exact ⟨t, by simp_all⟩
        · simp at h
  · rintro ⟨t, rfl⟩
    exact leadsWith_self_append p t

theorem leadsWith_length {p s : Str} (h : leadsWith p s = true) : p.length ≤ s.length := by
  obtain ⟨t, rfl⟩ := leadsWith_iff.mp h
  simp

theorem endsWith_iff {p s : Str} : endsWith p s = true ↔ ∃ g, s = g ++ p := by
  unfold endsWith
  rw [leadsWith_iff]
  constructor
  · rintro ⟨t, ht⟩
    refine ⟨t.reverse, ?_⟩
    have := congrArg List.reverse ht
    simpa using this
  · rintro ⟨g, rfl⟩
    exact ⟨g.reverse, by simp⟩

theorem endsWith_append_self (g p : Str) : endsWith p (g ++ p) = true :=
  endsWith_iff.mpr ⟨g, rfl⟩

theorem hasSub_iff {pat s : Str} : hasSub pat s = true ↔ ∃ a b, s = a ++ pat ++ b := by
  induction s with
  | nil =>
    simp only [hasSub]
    rw [leadsWith_iff]
    constructor
    · rintro ⟨t, ht⟩
      exact ⟨[], t, ht⟩
    · rintro ⟨a, b, hab⟩
      have ha : a = [] := by
        cases a with
        | nil => rfl
        | cons x xs => simp at hab
      subst ha
      exact ⟨b, by simpa using hab⟩
  | cons c cs ih =>
    simp only [hasSub, Bool.or_eq_true]
    constructor
    · rintro (h | h)
      · obtain ⟨t, ht⟩ := leadsWith_iff.mp h
        exact ⟨[], t, by simpa using ht⟩
      · obtain ⟨a, b, hab⟩ := ih.mp h
        exact ⟨c :: a, b, by simp [hab]⟩
    · rintro ⟨a, b, hab⟩
      cases a with
      | nil =>
        left
        simp only [List.nil_append] at hab
        exact leadsWith_iff.mpr ⟨b, hab⟩
      | cons x xs =>
        right
        simp only [List.cons_append, List.cons.injEq] at hab
        exact ih.mpr ⟨xs, b, hab.2⟩

theorem hasSub_parts (pat a b : Str) : hasSub pat (a ++ pat ++ b) = true :=
  hasSub_iff.mpr ⟨a, b, rfl⟩

theorem hasSub_pair_append {a b : Char} {xs ys : Str}
    (h : hasSub [a, b] (xs ++ ys) = true) :
    hasSub [a, b] xs = true ∨ hasSub [a, b] ys = true ∨
      ((∃ xs2, xs = xs2 ++ [a]) ∧ (∃ ys2, ys = b :: ys2)) := by
  induction xs with
  | nil => exact Or.inr (Or.inl (by simpa using h))
  | cons x xs ih =>
    simp only [List.cons_append, hasSub, Bool.or_eq_true] at h
    rcases h with h | h
    · obtain ⟨t, ht⟩ := leadsWith_iff.mp h
      simp only [List.cons_append, List.nil_append, List.cons.injEq] at ht
      obtain ⟨rfl, ht2⟩ := ht
      cases xs with
      | nil =>
        exact Or.inr (Or.inr ⟨⟨[], by simp⟩, ⟨t, by simpa using ht2⟩⟩)
      | cons x2 xs2 =>
        have hx2 : x2 = b := by
          have := congrArg (fun l => l.head?) ht2
          simpa using this
        subst hx2
        left
        simp [hasSub, leadsWith]
    · rcases ih h with h2 | h2 | ⟨⟨xs2, hx⟩, hy⟩
      · left
        simp only [hasSub, Bool.or_eq_true]
        exact Or.inr h2
      · exact Or.inr (Or.inl h2)
      · exact Or.inr (Or.inr ⟨⟨x :: xs2, by simp [hx]⟩, hy⟩)

theorem mem_of_hasSub_pair {a b : Char} {s : Str} (h : hasSub [a, b] s = true) :
    a ∈ s := by
  obtain ⟨x, y, hxy⟩ := hasSub_iff.mp h
  subst hxy
  simp

instance : Inhabited PromptTemplate := ⟨⟨[], 0, []⟩⟩

instance : Inhabited FileData := ⟨.raw []⟩

theorem keys_nil : keys [] = [] := rfl

theorem keys_cons (k : Str) (e : FileData) (rest : Store) :
    keys ((k, e) :: rest) = k :: keys rest := rfl

theorem readFile_writeFile_self (s : Store) (f : Str) (d : FileData) :
    readFile (writeFile s f d) f = some d := by
  induction s with
  | nil => simp [writeFile, readFile]
  | cons p rest ih =>
    obtain ⟨g, e⟩ := p
    by_cases hg : g = f
    · simp [writeFile, hg, readFile]
    · simp [writeFile, hg, readFile, ih]

theorem readFile_writeFile_ne (s : Store) {f g : Str} (d : FileData) (h : g ≠ f) :
    readFile (writeFile s f d) g = readFile s g := by
  induction s with
  | nil => simp [writeFile, readFile, Ne.symm h]
  | cons p rest ih =>
    obtain ⟨k, e⟩ := p
    by_cases hk : k = f
    · subst hk
      simp [writeFile, readFile, Ne.symm h]
    · simp only [writeFile, if_neg hk]
      by_cases hkg : k = g
      · simp [readFile, hkg]
      · simp [readFile, hkg, ih]

theorem keys_writeFile_mem (s : Store) {f : Str} (d : FileData) (h : f ∈ keys s) :
    keys (writeFile s f d) = keys s := by
  induction s with
  | nil => simp [keys] at h
  | cons p rest ih =>
    obtain ⟨k, e⟩ := p
    simp only [keys_cons, List.mem_cons] at h
    by_cases hk : k = f
    · subst hk
      simp [writeFile, keys_cons]
    · rcases h with h | h
      · exact absurd h.symm hk
      · simp only [writeFile, if_neg hk, keys_cons, ih h]

theorem keys_writeFile_notMem (s : Store) {f : Str} (d : FileData) (h : f ∉ keys s) :
    keys (writeFile s f d) = keys s ++ [f] := by
  induction s with
  | nil => simp [writeFile, keys]
  | cons p rest ih =>
    obtain ⟨k, e⟩ := p
    simp only [keys_cons, List.mem_cons, not_or] at h
    have hk : k ≠ f := fun hkf => h.1 hkf.symm
    simp only [writeFile, if_neg hk, keys_cons, List.cons_append, List.cons.injEq,
      true_and]
    exact ih h.2

theorem readFile_none_iff {s : Store} {f : Str} :
    readFile s f = none ↔ f ∉ keys s := by
  induction s with
  | nil => simp [readFile, keys]
  | cons p rest ih =>
    obtain ⟨k, e⟩ := p
    by_cases hk : k = f
    · subst hk
      simp [readFile, keys_cons]
    · simp [readFile, hk, keys_cons, ih, Ne.symm hk]

theorem readFile_mem_nodup {s : Store} {f : Str} {d : FileData}
    (hm : (f, d) ∈ s) (hnd : (keys s).Nodup) : readFile s f = some d := by
  induction s with
  | nil => simp at hm
  | cons p rest ih =>
    obtain ⟨k, e⟩ := p
    simp only [keys_cons, List.nodup_cons] at hnd
    rcases List.mem_cons.mp hm with hm1 | hm2
    · simp only [Prod.mk.injEq] at hm1
      obtain ⟨rfl, rfl⟩ := hm1
      simp [readFile]
    · have hf : f ∈ keys rest := by
        have := List.mem_map_of_mem Prod.fst hm2
        simpa [keys] using this
      have hk : k ≠ f := fun h => hnd.1 (h ▸ hf)
      simp [readFile, hk, ih hm2 hnd.2]

theorem readFile_some_mem {s : Store} {f : Str} {d : FileData}
    (h : readFile s f = some d) : (f, d) ∈ s := by
  induction s with
  | nil => simp [readFile] at h
  | cons p rest ih =>
    obtain ⟨k, e⟩ := p
    simp only [readFile] at h
    split at h
    · simp_all
    · exact List.mem_cons_of_mem _ (ih h)

/-- Reading back a decimal string, used to invert natStr. -/
def strToNatAux : Str → Nat → Nat
  | [], acc => acc
  | c :: cs, acc => strToNatAux cs (acc * 10 + (c.toNat - 48))

theorem strToNatAux_append (a b : Str) (acc : Nat) :
    strToNatAux (a ++ b) acc = strToNatAux b (strToNatAux a acc) := by
  induction a generalizing acc with
  | nil => rfl
  | cons c cs ih => simp [strToNatAux, ih]

theorem digitChar_toNat {d : Nat} (h : d < 10) : (Nat.digitChar d).toNat = 48 + d := by
  interval_cases d <;> rfl

theorem natStrAux_val (fuel : Nat) : ∀ n acc, n < fuel →
    strToNatAux (natStrAux fuel n) acc = acc * 10 ^ (natStrAux fuel n).length + n := by
  induction fuel with
  | zero => intro n acc h; omega
  | succ fuel ih =>
    intro n acc h
    by_cases h10 : n < 10
    · simp [natStrAux, h10, strToNatAux, digitChar_toNat h10]
    · have hf : n / 10 < fuel := by
        have h1 : n / 10 < n := Nat.div_lt_self (by omega) (by omega)
        omega
      simp only [natStrAux, if_neg h10, strToNatAux_append, List.length_append,
        List.length_singleton]
      rw [ih (n / 10) acc hf]
      simp only [strToNatAux]
      have hd : (Nat.digitChar (n % 10)).toNat = 48 + n % 10 :=
        digitChar_toNat (Nat.mod_lt n (by omega))
      rw [hd]
      have : (acc * 10 ^ (natStrAux fuel (n / 10)).length + n / 10) * 10 +
          (48 + n % 10 - 48) =
          acc * (10 ^ (natStrAux fuel (n / 10)).length * 10) + (n / 10 * 10 + n % 10) := by
        ring_nf
        omega
      rw [this, pow_succ]
      congr 1
      omega

theorem natStr_val (n : Nat) : strToNatAux (natStr n) 0 = n := by
  have := natStrAux_val (n + 1) n 0 (by omega)
  simpa [natStr] using this

theorem natStr_inj {n m : Nat} (h : natStr n = natStr m) : n = m := by
  have h1 := natStr_val n
  have h2 := natStr_val m
  rw [h] at h1
  omega

theorem natStrAux_digits (fuel : Nat) : ∀ n c, c ∈ natStrAux fuel n →
    ∃ d, d < 10 ∧ c = Nat.digitChar d := by
  induction fuel with
  | zero => intro n c h; simp [natStrAux] at h
  | succ fuel ih =>
    intro n c h
    by_cases h10 : n < 10
    · simp only [natStrAux, if_pos h10, List.mem_singleton] at h
      exact ⟨n, h10, h⟩
    · simp only [natStrAux, if_neg h10, List.mem_append, List.mem_singleton] at h
      rcases h with h | h
      · exact ih (n / 10) c h
      · exact ⟨n % 10, Nat.mod_lt n (by omega), h⟩

theorem natStr_no_underscore {v : Nat} : '_' ∉ natStr v := by
  intro h
  obtain ⟨d, hd, hc⟩ := natStrAux_digits (v + 1) v '_' h
  interval_cases d <;> exact absurd hc (by decide)

theorem hasSub_vSep_natStr (v : Nat) : hasSub vSep (natStr v) = false := by
  cases h : hasSub vSep (natStr v)
  · rfl
  · have hv : vSep = ['_', 'v'] := rfl
    rw [hv] at h
    exact absurd (mem_of_hasSub_pair h) natStr_no_underscore

theorem jsonExt_length : jsonExt.length = 5 := rfl

theorem vSep_length : vSep.length = 2 := rfl

theorem take_strip (g p : Str) : (g ++ p).take ((g ++ p).length - p.length) = g := by
  have h : (g ++ p).length - p.length = g.length := by simp
  rw [h, List.take_left]

theorem leadsWith_refl (p : Str) : leadsWith p p = true := by
  simpa using leadsWith_self_append p []

theorem leadsWith_too_long {p s : Str} (h : s.length < p.length) :
    leadsWith p s = false := by
  cases hl : leadsWith p s
  · rfl
  · exact absurd (leadsWith_length hl) (by omega)

theorem latestPath_inj {n m : Str} (h : latestPath n = latestPath m) : n = m :=
  List.append_cancel_right h

theorem latestPath_ne_versionPath (n : Str) (v : Nat) :
    latestPath n ≠ versionPath n v := by
  intro h
  unfold latestPath versionPath at h
  have h2 : jsonExt = vSep ++ natStr v ++ jsonExt := by
    have := congrArg (List.drop n.length) h
    simpa [List.append_assoc, List.drop_left] using this
  have := congrArg List.length h2
  simp only [List.length_append, jsonExt_length, vSep_length] at this
  omega

theorem versionPath_inj_v {n : Str} {v w : Nat}
    (h : versionPath n v = versionPath n w) : v = w := by
  unfold versionPath at h
  have h1 : n ++ vSep ++ natStr v = n ++ vSep ++ natStr w :=
    List.append_cancel_right h
  exact natStr_inj (List.append_cancel_left h1)

theorem versionsGlob_versionPath (n : Str) (v : Nat) :
    versionsGlob n (versionPath n v) = true := by
  unfold versionsGlob versionPath
  rw [take_strip, endsWith_append_self, leadsWith_self_append]
  rfl

theorem versionsGlob_latestPath (n : Str) :
    versionsGlob n (latestPath n) = false := by
  unfold versionsGlob latestPath
  rw [take_strip]
  have h2 : leadsWith (n ++ vSep) n = false := by
    apply leadsWith_too_long
    simp [vSep_length]
  simp [h2]

theorem deleteGlob_latestPath (n : Str) : deleteGlob n (latestPath n) = true := by
  unfold deleteGlob latestPath
  rw [take_strip, endsWith_append_self, leadsWith_refl]
  rfl

theorem deleteGlob_versionPath (n : Str) (v : Nat) :
    deleteGlob n (versionPath n v) = true := by
  unfold deleteGlob versionPath
  rw [take_strip, endsWith_append_self, List.append_assoc n vSep (natStr v),
    leadsWith_self_append]
  rfl

theorem hasSub_vSep_latestPath {n : Str} (h : hasSub vSep n = false) :
    hasSub vSep (latestPath n) = false := by
  cases hl : hasSub vSep (latestPath n)
  · rfl
  · exfalso
    have hv : vSep = ['_', 'v'] := rfl
    unfold latestPath at hl
    rw [hv] at hl
    rcases hasSub_pair_append hl with h1 | h1 | ⟨_, ⟨ys2, hy⟩⟩
    · rw [← hv] at h1
      simp [h] at h1
    · have : hasSub ['_', 'v'] jsonExt = false := by decide
      simp_all
    · have := congrArg (fun l => l.head?) hy
      simp [jsonExt, str] at this

theorem hasSub_head {pat : Str} {c : Char} {cs : Str}
    (h : hasSub pat (c :: cs) = false) : leadsWith pat (c :: cs) = false := by
  rw [show hasSub pat (c :: cs) = (leadsWith pat (c :: cs) || hasSub pat cs) from rfl] at h
  exact (Bool.or_eq_false_iff.mp h).1

theorem hasSub_tail {pat : Str} {c : Char} {cs : Str}
    (h : hasSub pat (c :: cs) = false) : hasSub pat cs = false := by
  rw [show hasSub pat (c :: cs) = (leadsWith pat (c :: cs) || hasSub pat cs) from rfl] at h
  exact (Bool.or_eq_false_iff.mp h).2

theorem splitVs_no_sub (s : Str) : hasSub vSep s = false → splitVs s = [s] := by
  induction s using splitVs.induct with
  | case1 => intro _; rfl
  | case2 rest ih =>
    intro h
    exfalso
    have hl : leadsWith vSep ('_' :: 'v' :: rest) = true := by
      have hv : vSep = ['_', 'v'] := rfl
      rw [hv]
      simp [leadsWith]
    rw [hasSub_head h] at hl
    exact Bool.false_ne_true hl
  | case3 c rest hne hsp ih =>
    intro h
    exfalso
    rw [ih (hasSub_tail h)] at hsp
    exact List.cons_ne_nil _ _ hsp
  | case4 c rest hne r rs hsp ih =>
    intro h
    have h2 := ih (hasSub_tail h)
    rw [hsp] at h2
    rw [splitVs.eq_3 c rest hne, hsp]
    simp only [List.cons.injEq] at h2
    obtain ⟨ha, hb⟩ := h2
    subst ha
    subst hb
    rfl

theorem splitVs_mid (n d : Str) (hn : hasSub vSep n = false) (hd : '_' ∉ d) :
    splitVs (n ++ vSep ++ d) = [n, d] := by
  have hdn : hasSub vSep d = false := by
    cases hc : hasSub vSep d
    · rfl
    · have hv : vSep = ['_', 'v'] := rfl
      rw [hv] at hc
      exact absurd (mem_of_hasSub_pair hc) hd
  induction n with
  | nil =>
    have hv : ([] : Str) ++ vSep ++ d = '_' :: 'v' :: d := rfl
    rw [hv, splitVs.eq_2, splitVs_no_sub d hdn]
  | cons x n2 ih =>
    have hx : (x :: n2) ++ vSep ++ d = x :: (n2 ++ vSep ++ d) := by simp
    rw [hx]
    have hne : ∀ rest1 : Str, x = '_' → n2 ++ vSep ++ d = 'v' :: rest1 → False := by
      intro rest1 hx2 hr
      cases n2 with
      | nil =>
        have : vSep ++ d = 'v' :: rest1 := by simpa using hr
        have := congrArg (fun l => l.head?) this
        simp [vSep, str] at this
      | cons y n3 =>
        have hy : y = 'v' := by
          have := congrArg (fun l => l.head?) hr
          simpa using this
        have : leadsWith vSep (x :: y :: n3) = true := by
          have hv : vSep = ['_', 'v'] := rfl
          rw [hv, hx2, hy]
          simp [leadsWith]
        rw [hasSub_head hn] at this
        exact Bool.false_ne_true this
    rw [splitVs.eq_3 x _ hne, ih (hasSub_tail hn)]

theorem trimSuffix_append (a p : Str) : trimSuffix (a ++ p) p = a := by
  unfold trimSuffix
  rw [endsWith_append_self]
  exact take_strip a p

theorem versionEntry_versionPath {n : Str} (hn : hasSub vSep n = false) (v : Nat) :
    versionEntry n (versionPath n v) = some (natStr v) := by
  unfold versionEntry
  rw [versionsGlob_versionPath]
  have hp : versionPath n v = (n ++ vSep ++ natStr v) ++ jsonExt := by
    simp [versionPath, List.append_assoc]
  rw [if_pos rfl, hp, trimSuffix_append, splitVs_mid n (natStr v) hn natStr_no_underscore]

theorem versionEntry_glob_false {n f : Str} (h : versionsGlob n f = false) :
    versionEntry n f = none := by
  unfold versionEntry
  rw [h]
  rfl

theorem versionEntry_latestPath (n : Str) : versionEntry n (latestPath n) = none :=
  versionEntry_glob_false (versionsGlob_latestPath n)

theorem scan_text (s : Str) (h : ∀ c ∈ s, c ≠ '\x7b') :
    scan s none = .ok (s.map Piece.chr) := by
  induction s with
  | nil => rfl
  | cons c cs ih =>
    have hc : c ≠ '\x7b' := h c (by simp)
    rw [scan.eq_4 c cs (fun r1 hcc _ => hc hcc),
      ih (fun c2 hc2 => h c2 (by simp [hc2]))]
    rfl

theorem scan_goPh (s : Str) :
    scan (goPh ++ s) none = (scan s none).map (fun ps => .field inputField :: ps) := by
  simp [goPh, str, scan, parseAction, inputField]

theorem scan_replacePh (content : Str) : (∀ c ∈ content, c ≠ '\x7b') →
    ∃ ps, scan (replacePh goPh content) none = .ok ps ∧
      ∀ input, execPieces ps input = replacePh input content := by
  refine replacePh.induct goPh
    (fun content => (∀ c ∈ content, c ≠ '\x7b') →
      ∃ ps, scan (replacePh goPh content) none = .ok ps ∧
        ∀ input, execPieces ps input = replacePh input content) ?_ ?_ ?_ content
  · intro rest ih hb
    obtain ⟨ps, hps, hex⟩ := ih (fun c hc => hb c (by simp [hc]))
    refine ⟨.field inputField :: ps, ?_, ?_⟩
    · rw [replacePh.eq_1, scan_goPh, hps]
      rfl
    · intro input
      rw [show replacePh input ('<' :: 'i' :: 'n' :: 'p' :: 'u' :: 't' :: '>' :: rest) =
        input ++ replacePh input rest from replacePh.eq_1 input rest]
      simp [execPieces, hex input]
  · intro c rest hne ih hb
    have hc : c ≠ '\x7b' := hb c (by simp)
    obtain ⟨ps, hps, hex⟩ := ih (fun c2 hc2 => hb c2 (by simp [hc2]))
    refine ⟨.chr c :: ps, ?_, ?_⟩
    · rw [replacePh.eq_2 goPh c rest hne, scan.eq_4 c _ (fun r1 hcc _ => hc hcc), hps]
      rfl
    · intro input
      rw [replacePh.eq_2 input c rest hne]
      simp [execPieces, hex input]
  · intro _
    exact ⟨[], rfl, fun input => rfl⟩

theorem renderTemplate_literal (content : Str) (hb : ∀ c ∈ content, c ≠ '\x7b')
    (input : Str) : renderTemplate content input = .ok (replacePh input content) := by
  obtain ⟨ps, hps, hex⟩ := scan_replacePh content hb
  unfold renderTemplate parseTmpl
  rw [hps]
  exact congrArg Except.ok (hex input)

theorem resolveInput_inline (a : Str) (caps : Caps) (h : a ≠ clipFlag) :
    resolveInput (some a) caps = (.ok a, ⟨false, false⟩) := by
  simp only [resolveInput]
  rw [if_neg h]

theorem resolveInput_fallback (caps : Caps)
    (he : caps.editor = .error () ∨ ∃ e, caps.editor = .ok e ∧ trimSpace e = []) :
    resolveInput none caps = clipFallback caps := by
  rcases he with he | ⟨e, he, ht⟩
  · simp only [resolveInput, he]
  · simp only [resolveInput, he]
    rw [if_pos ht]

/-- Clipboard and editor that both fail, for concrete evaluations. -/
def capsNone : Caps := ⟨.error (), .error ()⟩

/-- A store holding one template "sum" at version 1, used as a concrete
successful-generation scenario. -/
def storeSum : Store :=
  [(str "sum.json", .tpl ⟨str "sum", 1, str "Q: <input>"⟩),
   (str "sum_v1.json", .tpl ⟨str "sum", 1, str "Q: <input>"⟩)]

theorem genFinish_snd (s : Store) (t : PromptTemplate) (input : Str) :
    Except.map Prod.snd (genFinish s t input) = Except.map (fun _ => s) (genFinish s t input) := by
  unfold genFinish
  cases renderTemplate t.template input with
  | error e => rfl
  | ok o => rfl

/-- C1: a successful generation appends exactly one entry to the history
log, and history entries are never removed.  The code never writes the
history file at all: the concrete successful generation below returns the
store unchanged with no history entry present, and in general the store
left behind by generatePrompt is always exactly the input store. -/
theorem c1_no_history_append :
    (generatePrompt storeSum (str "sum") (some (str "x")) capsNone =
      (.ok (str "Q: x", storeSum), ⟨false, false⟩) ∧
     readFile storeSum historyPath = none) ∧
    ∀ (s : Store) (n : Str) (arg : Option Str) (caps : Caps),
      Except.map Prod.snd (generatePrompt s n arg caps).1 =
        Except.map (fun _ => s) (generatePrompt s n arg caps).1 := by
  refine ⟨⟨rfl, rfl⟩, ?_⟩
  intro s n arg caps
  unfold generatePrompt
  cases hl : loadTemplate s n with
  | error e => rfl
  | ok t =>
    cases hr : resolveInput arg caps with
    | mk r tr =>
      cases r with
      | error e => rfl
      | ok input => exact genFinish_snd s t input

/-- A store holding the templates "a" and "ab", each with one version. -/
def storeAB : Store :=
  [(str "a.json", .tpl ⟨str "a", 1, str "A"⟩),
   (str "a_v1.json", .tpl ⟨str "a", 1, str "A"⟩),
   (str "ab.json", .tpl ⟨str "ab", 1, str "B"⟩),
   (str "ab_v1.json", .tpl ⟨str "ab", 1, str "B"⟩)]

/-- C2: delete(n) must remove only the records of n.  The glob pattern
NAME*.json also matches any template whose name extends NAME: deleting
"a" from a store that also holds the distinct template "ab" removes all
four files, including both records of "ab". -/
theorem c2_delete_prefix_overreach :
    loadTemplate storeAB (str "ab") = .ok ⟨str "ab", 1, str "B"⟩ ∧
    deleteTemplate storeAB (str "a") = .ok [] := ⟨rfl, rfl⟩

/-- A store holding a version-1 record for "n" but no latest pointer. -/
def storeV1A : Store := [(str "n_v1.json", .tpl ⟨str "n", 1, str "A"⟩)]

/-- C3 counterexample: with a version record n_v1 of content A present and
the latest pointer absent, create("n", "B") succeeds silently and the
record under the same (name, version) key now holds B. -/
theorem c3_counterexample :
    readFile storeV1A (versionPath (str "n") 1) = some (.tpl ⟨str "n", 1, str "A"⟩) ∧
    addTemplate storeV1A (str "n") (str "B") =
      .ok [(str "n_v1.json", .tpl ⟨str "n", 1, str "B"⟩),
           (str "n.json", .tpl ⟨str "n", 1, str "B"⟩)] := ⟨rfl, rfl⟩

/-- C3 amended: the version-record write of create is unconditional: under
the sole precondition that the latest pointer is absent (and the name is
non-empty after trimming), create succeeds and the (name, 1) version
record afterwards holds the new content, whatever record previously
existed under that key. -/
theorem c3_amended (s : Store) (n c : Str)
    (hn : trimSpace n = n) (hne : n ≠ [])
    (hfresh : readFile s (latestPath n) = none) :
    ∃ s2, addTemplate s n c = .ok s2 ∧
      readFile s2 (versionPath n 1) = some (.tpl ⟨n, 1, c⟩) := by
  unfold addTemplate
  rw [hn, if_neg hne, hfresh]
  refine ⟨_, rfl, ?_⟩
  rw [readFile_writeFile_ne _ _ (latestPath_ne_versionPath n 1).symm]
  exact readFile_writeFile_self ..

/-- C3 amended, witnessed at the counterexample store: the version-1 record
of "n" held content A, create("n", "B") succeeds and it now holds B. -/
theorem c3_amended_witness :
    ∃ s2, addTemplate storeV1A (str "n") (str "B") = .ok s2 ∧
      readFile s2 (versionPath (str "n") 1) = some (.tpl ⟨str "n", 1, str "B"⟩) :=
  c3_amended storeV1A (str "n") (str "B") (by decide) (by decide) (by decide)

/-- C4 counterexample: the content "Hi \x7b\x7b.Foo\x7d\x7d" contains
template syntax beyond the placeholder, yet generation succeeds and renders
it to the corrupt text "Hi <no value>" instead of failing. -/
theorem c4_counterexample :
    renderTemplate (str "Hi \x7b\x7b.Foo\x7d\x7d") (str "x") =
      .ok (str "Hi <no value>") ∧
    str "Hi <no value>" ≠ str "Hi \x7b\x7b.Foo\x7d\x7d" := ⟨rfl, by decide⟩

/-- C4 amended: substitution validates the template only up to Go template
parsing: a malformed action (unterminated delimiter) is rejected before
rendering, but a well-formed action beyond the placeholder is accepted and
silently rendered (an absent field becomes "<no value>"), for every input. -/
theorem c4_amended (input : Str) :
    renderTemplate (str "Hi \x7b\x7bbroken") input = .error () ∧
    renderTemplate (str "Hi \x7b\x7b.Foo\x7d\x7d") input = .ok (str "Hi <no value>") :=
  ⟨rfl, rfl⟩

/-- C5: an inline text argument (any argument other than the reserved
--clip flag, which requests the clipboard instead) is used verbatim as the
resolved input, and the invocation consults neither the clipboard-read
capability nor the editor capability. -/
theorem c5_inline_verbatim (s : Store) (n a : Str) (caps : Caps)
    (h : a ≠ clipFlag) :
    (generatePrompt s n (some a) caps).2 = ⟨false, false⟩ ∧
    ∀ t, loadTemplate s n = .ok t →
      generatePrompt s n (some a) caps = (genFinish s t a, ⟨false, false⟩) := by
  have hr := resolveInput_inline a caps h
  unfold generatePrompt
  cases hl : loadTemplate s n with
  | error e =>
    refine ⟨rfl, fun t ht => ?_⟩
    simp at ht
  | ok t2 =>
    rw [hr]
    refine ⟨rfl, fun t ht => ?_⟩
    injection ht with ht2
    rw [ht2]

/-- C5 witnessed at a concrete store, name and input. -/
theorem c5_inline_verbatim_witness :
    str "x" ≠ clipFlag ∧
    generatePrompt storeSum (str "sum") (some (str "x")) capsNone =
      (genFinish storeSum ⟨str "sum", 1, str "Q: <input>"⟩ (str "x"), ⟨false, false⟩) :=
  ⟨by decide,
    (c5_inline_verbatim storeSum (str "sum") (str "x") capsNone (by decide)).2 _ rfl⟩

/-- C8: with no inline text and no --clip flag, when the editor capability
fails or returns only white space the engine falls back to the clipboard:
a successful clipboard read becomes the input of the generation, and a
failing clipboard read fails the whole generation with InputUnavailable. -/
theorem c8_editor_fallback (s : Store) (n : Str) (t : PromptTemplate) (caps : Caps)
    (hl : loadTemplate s n = .ok t)
    (he : caps.editor = .error () ∨ ∃ e, caps.editor = .ok e ∧ trimSpace e = []) :
    (caps.clipboard = .error () →
      generatePrompt s n none caps = (.error .inputUnavailable, ⟨true, true⟩)) ∧
    ∀ c, caps.clipboard = .ok c →
      generatePrompt s n none caps = (genFinish s t c, ⟨true, true⟩) := by
  have hr := resolveInput_fallback caps he
  unfold generatePrompt
  rw [hl, hr]
  unfold clipFallback
  constructor
  · intro hc
    rw [hc]
  · intro c hc
    rw [hc]

/-- C8 witnessed: editor returning only white space and a failing clipboard
yield InputUnavailable; with a working clipboard its text becomes the
input. -/
theorem c8_editor_fallback_witness :
    generatePrompt storeSum (str "sum") none ⟨.error (), .ok (str "  \n ")⟩ =
      (.error .inputUnavailable, ⟨true, true⟩) ∧
    generatePrompt storeSum (str "sum") none ⟨.ok (str "clip"), .ok (str "  \n ")⟩ =
      (genFinish storeSum ⟨str "sum", 1, str "Q: <input>"⟩ (str "clip"), ⟨true, true⟩) :=
  ⟨(c8_editor_fallback storeSum (str "sum") _ _ rfl
      (Or.inr ⟨str "  \n ", rfl, by decide⟩)).1 rfl,
   (c8_editor_fallback storeSum (str "sum") _ _ rfl
      (Or.inr ⟨str "  \n ", rfl, by decide⟩)).2 (str "clip") rfl⟩

/-- C10: existence is decided solely by the latest-pointer record: when it
is absent but version records for n exist, update, generate and review all
fail with NotFound, while create succeeds rather than failing with
AlreadyExists. -/
theorem c10_latest_pointer_existence (s : Store) (n : Str)
    (habs : readFile s (latestPath n) = none)
    (hver : ∃ v d, readFile s (versionPath n v) = some d)
    (hn : trimSpace n = n) (hne : n ≠ []) :
    (∀ c, updateTemplate s n c = .error ()) ∧
    (∀ arg caps, generatePrompt s n arg caps = (.error .notFound, ⟨false, false⟩)) ∧
    reviewTemplate s n = .error () ∧
    (∀ c, ∃ s2, addTemplate s n c = .ok s2) := by
  have hload : loadTemplate s n = .error () := by
    unfold loadTemplate
    rw [habs]
  refine ⟨?_, ?_, ?_, ?_⟩
  · intro c
    unfold updateTemplate
    rw [hload]
  · intro arg caps
    unfold generatePrompt
    rw [hload]
  · unfold reviewTemplate
    exact hload
  · intro c
    unfold addTemplate
    rw [hn, if_neg hne, habs]
    exact ⟨_, rfl⟩

/-- C10 witnessed at a store holding only the orphaned record n_v1.json. -/
theorem c10_latest_pointer_existence_witness :
    updateTemplate storeV1A (str "n") (str "B") = .error () ∧
    reviewTemplate storeV1A (str "n") = .error () ∧
    generatePrompt storeV1A (str "n") (some (str "x")) capsNone =
      (.error .notFound, ⟨false, false⟩) ∧
    ∃ s2, addTemplate storeV1A (str "n") (str "B") = .ok s2 := by
  have h := c10_latest_pointer_existence storeV1A (str "n") (by decide)
    ⟨1, .tpl ⟨str "n", 1, str "A"⟩, by decide⟩ (by decide) (by decide)
  exact ⟨h.1 _, h.2.2.1, h.2.1 _ _, h.2.2.2 _⟩

/-- C6 counterexample: the fresh name "a_vb" is created at version 1 with a
latest record in place, yet the versions listing for it is empty rather
than the set containing 1, because its version files split into three parts
on the "_v" separator and are skipped. -/
theorem c6_counterexample :
    ∃ s2, addTemplate [] (str "a_vb") (str "T") = .ok s2 ∧
      loadTemplate s2 (str "a_vb") = .ok ⟨str "a_vb", 1, str "T"⟩ ∧
      listVersions s2 (str "a_vb") = [] :=
  ⟨[(str "a_vb_v1.json", .tpl ⟨str "a_vb", 1, str "T"⟩),
    (str "a_vb.json", .tpl ⟨str "a_vb", 1, str "T"⟩)], rfl, rfl, rfl⟩

/-- C9 counterexample: a store holding only the template named "a_v1"
(created normally, latest record present and well formed) produces an empty
listing: its file names contain "_v" and are skipped as if they were
version records. -/
theorem c9_counterexample :
    ∃ s2, addTemplate [] (str "a_v1") (str "T") = .ok s2 ∧
      loadTemplate s2 (str "a_v1") = .ok ⟨str "a_v1", 1, str "T"⟩ ∧
      listTemplates s2 = [] :=
  ⟨[(str "a_v1_v1.json", .tpl ⟨str "a_v1", 1, str "T"⟩),
    (str "a_v1.json", .tpl ⟨str "a_v1", 1, str "T"⟩)], rfl, rfl, rfl⟩

/-- C7 counterexample: substitution is not literal placeholder replacement
for every content: the content consisting of the normalized field action
itself contains no placeholder token, yet renders to the input rather than
to itself. -/
theorem c7_counterexample :
    renderTemplate (str "\x7b\x7b.Input\x7d\x7d") (str "hello") = .ok (str "hello") ∧
    hasSub placeholder (str "\x7b\x7b.Input\x7d\x7d") = false ∧
    str "hello" ≠ str "\x7b\x7b.Input\x7d\x7d" := ⟨rfl, by decide, by decide⟩

/-- C7 amended: for every template content free of the Go action delimiter
character and every input, substitution is exactly literal replacement of
every occurrence of the placeholder token by the input (single pass, so an
input containing the token is inserted literally and never re-expanded);
the empty content renders to itself, and the normalized-action content and
multiple-occurrence behaviour follow as instances. -/
theorem c7_amended (content input : Str) (hb : ∀ c ∈ content, c ≠ '\x7b') :
    renderTemplate content input = .ok (replacePh input content) ∧
    renderTemplate [] input = .ok [] ∧
    renderTemplate placeholder (str "a<input>b") = .ok (str "a<input>b") ∧
    renderTemplate (str "<input>+<input>") (str "x") = .ok (str "x+x") :=
  ⟨renderTemplate_literal content hb input, rfl, rfl, rfl⟩

/-- C7 amended, witnessed at the round-trip example of the claim. -/
theorem c7_amended_witness :
    renderTemplate (str "Summarize:\n<input>") (str "hello") =
      .ok (str "Summarize:\nhello") :=
  (c7_amended (str "Summarize:\n<input>") (str "hello") (by decide)).1

/-- A store file as the listing specification expects it: a well-formed
latest record whose key renders a name free of "_v" and whose content
carries that name, or a file whose name contains "_v" (version records),
or a malformed record. -/
def WFfile (p : Str × FileData) : Prop :=
  (∃ n t, p.1 = latestPath n ∧ hasSub vSep n = false ∧ p.2 = .tpl t ∧ t.name = n) ∨
  hasSub vSep p.1 = true ∨ (∃ r, p.2 = .raw r)

theorem listEntry_eq_some {p : Str × FileData} {n : Str} {v : Nat}
    (hwf : WFfile p) (h : listEntry p = some (n, v)) :
    p.1 = latestPath n ∧ hasSub vSep n = false ∧
      ∃ t, p.2 = .tpl t ∧ t.name = n ∧ t.version = v := by
  obtain ⟨f, d⟩ := p
  unfold listEntry at h
  split at h
  case isFalse => simp at h
  case isTrue hc =>
    rw [Bool.and_eq_true, Bool.not_eq_true'] at hc
    cases d with
    | raw r => simp at h
    | tpl t =>
      simp only [Option.some.injEq, Prod.mk.injEq] at h
      obtain ⟨hn, hv⟩ := h
      rcases hwf with ⟨m, t2, hf, hm, hd, hnm⟩ | hsub | ⟨r, hr⟩
      · simp only [FileData.tpl.injEq] at hd
        subst hd
        refine ⟨?_, ?_, t, rfl, hn, hv⟩
        · rw [hf, ← hn, hnm]
        · rw [← hn, hnm]
          exact hm
      · rw [hsub] at hc
        simp at hc
      · simp at hr

theorem listEntry_latest {n : Str} {t : PromptTemplate}
    (hn : hasSub vSep n = false) :
    listEntry (latestPath n, .tpl t) = some (t.name, t.version) := by
  have h1 : endsWith jsonExt (latestPath n) = true := endsWith_append_self n jsonExt
  have h2 : hasSub vSep (latestPath n) = false := hasSub_vSep_latestPath hn
  unfold listEntry
  rw [h1, h2]
  rfl

theorem listTemplates_mem_key {s : Store} (hwf : ∀ p ∈ s, WFfile p) {n : Str}
    {v : Nat} (h : (n, v) ∈ listTemplates s) : latestPath n ∈ keys s := by
  obtain ⟨p, hp, he⟩ := List.mem_filterMap.mp h
  obtain ⟨hf, _, _⟩ := listEntry_eq_some (hwf p hp) he
  have := List.mem_map_of_mem Prod.fst hp
  rw [hf] at this
  exact this

/-- C9 amended: over stores whose files are well formed in the sense of
WFfile (unique keys, latest records named without "_v" and carrying their
own name), the listing yields exactly one entry (name, latest version) per
template name whose well-formed latest record is present, skipping
malformed records and every file whose name contains "_v"; a latest record
whose name contains "_v" is skipped as if it were a version record, and is
absent from the listing. -/
theorem c9_amended (s : Store) (hnd : (keys s).Nodup)
    (hwf : ∀ p ∈ s, WFfile p) :
    (∀ n v, (n, v) ∈ listTemplates s ↔
      (hasSub vSep n = false ∧
        ∃ t, readFile s (latestPath n) = some (.tpl t) ∧ t.name = n ∧ t.version = v)) ∧
    ((listTemplates s).map Prod.fst).Nodup := by
  constructor
  · intro n v
    constructor
    · intro h
      obtain ⟨p, hp, he⟩ := List.mem_filterMap.mp h
      obtain ⟨hf, hnosub, t, hd, hnm, hv⟩ := listEntry_eq_some (hwf p hp) he
      refine ⟨hnosub, t, ?_, hnm, hv⟩
      have hp2 : (latestPath n, FileData.tpl t) ∈ s := by
        have : p = (latestPath n, FileData.tpl t) := by
          obtain ⟨f, d⟩ := p
          simp only at hf hd
          rw [hf, hd]
        rw [← this]
        exact hp
      exact readFile_mem_nodup hp2 hnd
    · rintro ⟨hnosub, t, hread, hnm, hv⟩
      have hmem := readFile_some_mem hread
      refine List.mem_filterMap.mpr ⟨(latestPath n, .tpl t), hmem, ?_⟩
      rw [listEntry_latest hnosub, hnm, hv]
  · induction s with
    | nil => simp [listTemplates]
    | cons p rest ih =>
      have hwr : ∀ q ∈ rest, WFfile q := fun q hq => hwf q (List.mem_cons_of_mem _ hq)
      have hnd2 : (keys rest).Nodup ∧ p.1 ∉ keys rest := by
        obtain ⟨f, d⟩ := p
        rw [keys_cons, List.nodup_cons] at hnd
        exact ⟨hnd.2, hnd.1⟩
      cases hle : listEntry p with
      | none =>
        simpa [listTemplates, List.filterMap_cons, hle] using ih hnd2.1 hwr
      | some e =>
        obtain ⟨n, v⟩ := e
        have hkey := (listEntry_eq_some (hwf p (by simp)) hle).1
        simp only [listTemplates, List.filterMap_cons, hle, List.map_cons,
          List.nodup_cons]
        constructor
        · intro hmem
          obtain ⟨q, hq, hqf⟩ := List.mem_map.mp hmem
          obtain ⟨n2, v2⟩ := q
          simp only at hqf
          subst hqf
          have := listTemplates_mem_key hwr hq
          rw [← hkey] at this
          exact hnd2.2 this
        · exact ih hnd2.1 hwr

theorem filterMap_congr_some {α β : Type} (f : α → Option β) (g : α → β)
    (l : List α) (h : ∀ a ∈ l, f a = some (g a)) : l.filterMap f = l.map g := by
  induction l with
  | nil => rfl
  | cons a l ih =>
    rw [List.filterMap_cons, h a (by simp), List.map_cons,
      ih (fun a2 ha2 => h a2 (by simp [ha2]))]

/-- The store shape after creating the name n and performing k updates:
the keys are the original keys followed by the version-1 file, the latest
pointer, and the version files 2 .. k+1 in write order, and the latest
pointer holds the record (n, k+1, current content). -/
def InvC6 (s0k : List Str) (n : Str) (k : Nat) (cur : Str) (s : Store) : Prop :=
  keys s = s0k ++ [versionPath n 1, latestPath n] ++
    (List.range' 2 k).map (versionPath n) ∧
  readFile s (latestPath n) = some (.tpl ⟨n, k + 1, cur⟩)

theorem c6_add (s0 : Store) (n c : Str) (hn : trimSpace n = n) (hne : n ≠ [])
    (hfresh : readFile s0 (latestPath n) = none)
    (hglob : ∀ f ∈ keys s0, versionsGlob n f = false) :
    ∃ s1, addTemplate s0 n c = .ok s1 ∧ InvC6 (keys s0) n 0 c s1 := by
  unfold addTemplate
  rw [hn, if_neg hne, hfresh]
  refine ⟨_, rfl, ?_, ?_⟩
  · have hv1 : versionPath n 1 ∉ keys s0 := by
      intro hmem
      have := hglob _ hmem
      simp [versionsGlob_versionPath] at this
    have hk1 := keys_writeFile_notMem s0 (.tpl ⟨n, 1, c⟩) hv1
    have hlat : latestPath n ∉ keys (writeFile s0 (versionPath n 1) (.tpl ⟨n, 1, c⟩)) := by
      rw [hk1]
      intro hmem
      rcases List.mem_append.mp hmem with h1 | h1
      · exact (readFile_none_iff.mp hfresh) h1
      · exact latestPath_ne_versionPath n 1 (List.mem_singleton.mp h1)
    have hk2 := keys_writeFile_notMem _ (.tpl ⟨n, 1, c⟩) hlat
    rw [hk2, hk1]
    simp [List.range']
  · rw [readFile_writeFile_self]

theorem c6_update {s0k : List Str} {n : Str} {k : Nat} {cur : Str} {s : Store}
    (hglob : ∀ f ∈ s0k, versionsGlob n f = false)
    (hinv : InvC6 s0k n k cur s) (c : Str) :
    ∃ s2, updateTemplate s n c = .ok s2 ∧ InvC6 s0k n (k + 1) c s2 := by
  obtain ⟨hkeys, hlatest⟩ := hinv
  have hload : loadTemplate s n = .ok ⟨n, k + 1, cur⟩ := by
    unfold loadTemplate
    rw [hlatest]
  unfold updateTemplate
  rw [hload]
  refine ⟨_, rfl, ?_, ?_⟩
  · have hvnew : versionPath n (k + 1 + 1) ∉ keys s := by
      rw [hkeys]
      intro hmem
      rcases List.mem_append.mp hmem with h1 | h1
      · rcases List.mem_append.mp h1 with h2 | h2
        · have := hglob _ h2
          simp [versionsGlob_versionPath] at this
        · rcases List.mem_cons.mp h2 with h3 | h3
          · have := versionPath_inj_v h3
            omega
          · exact latestPath_ne_versionPath n (k + 1 + 1)
              (List.mem_singleton.mp h3).symm
      · obtain ⟨j, hj, hjeq⟩ := List.mem_map.mp h1
        have hjv := versionPath_inj_v hjeq
        have := List.mem_range'.mp hj
        omega
    have hk1 := keys_writeFile_notMem s (.tpl ⟨n, k + 1 + 1, c⟩) hvnew
    have hlatmem : latestPath n ∈
        keys (writeFile s (versionPath n (k + 1 + 1)) (.tpl ⟨n, k + 1 + 1, c⟩)) := by
      rw [hk1, hkeys]
      simp
    have hk2 := keys_writeFile_mem _ (.tpl ⟨n, k + 1 + 1, c⟩) hlatmem
    rw [hk2, hk1, hkeys]
    have hr : List.range' 2 (k + 1) = List.range' 2 k ++ [2 + k] := by
      simpa using @List.range'_concat 1 2 k
    rw [hr]
    simp only [List.map_append, List.map_cons, List.map_nil, List.append_assoc]
    have h2k : 2 + k = k + 1 + 1 := by omega
    rw [h2k]
  · rw [readFile_writeFile_self]

theorem c6_updates {s0k : List Str} {n : Str}
    (hglob : ∀ f ∈ s0k, versionsGlob n f = false) (cs : List Str) :
    ∀ {k : Nat} {cur : Str} {s : Store}, InvC6 s0k n k cur s →
      ∃ sN, applyUpdates s n cs = .ok sN ∧
        InvC6 s0k n (k + cs.length) (cs.getLastD cur) sN := by
  induction cs with
  | nil =>
    intro k cur s hinv
    exact ⟨s, rfl, by simpa using hinv⟩
  | cons c cs ih =>
    intro k cur s hinv
    obtain ⟨s2, hu, hinv2⟩ := c6_update hglob hinv c
    obtain ⟨sN, ha, hinvN⟩ := ih hinv2
    refine ⟨sN, ?_, ?_⟩
    · unfold applyUpdates
      rw [hu]
      exact ha
    · have h1 : k + (c :: cs).length = k + 1 + cs.length := by
        simp [List.length_cons]
        omega
      rw [h1, List.getLastD_cons]
      exact hinvN

theorem c6_listVersions {s0k : List Str} {n : Str} {k : Nat} {cur : Str}
    {s : Store} (hnv : hasSub vSep n = false)
    (hglob : ∀ f ∈ s0k, versionsGlob n f = false)
    (hinv : InvC6 s0k n k cur s) :
    listVersions s n = (List.range' 1 (k + 1)).map natStr := by
  obtain ⟨hkeys, _⟩ := hinv
  unfold listVersions
  rw [hkeys, List.filterMap_append, List.filterMap_append]
  have h0 : s0k.filterMap (versionEntry n) = [] := by
    rw [List.filterMap_eq_nil_iff]
    intro f hf
    exact versionEntry_glob_false (hglob f hf)
  have h1 : [versionPath n 1, latestPath n].filterMap (versionEntry n) = [natStr 1] := by
    rw [List.filterMap_cons, versionEntry_versionPath hnv 1, List.filterMap_cons,
      versionEntry_latestPath, List.filterMap_nil]
  have h2 : ((List.range' 2 k).map (versionPath n)).filterMap (versionEntry n) =
      (List.range' 2 k).map natStr := by
    rw [List.filterMap_map]
    exact filterMap_congr_some _ _ _ (fun j _ => versionEntry_versionPath hnv j)
  rw [h0, h1, h2, List.range'_succ]
  simp

/-- C6 amended: for a fresh name n that contains no "_v" substring (and no
other stored file matching n's version-file pattern), create stores version
1 with the latest pointer at version 1, every sequence of N successful
updates brings the latest version to 1 + N, and the versions listing
reports exactly the decimal strings of 1 .. 1 + N.  Names containing "_v"
violate the listing clause: their version files split into more than two
parts on the "_v" separator and the listing is empty. -/
theorem c6_amended (s0 : Store) (n c : Str) (cs : List Str)
    (hn : trimSpace n = n) (hne : n ≠ [])
    (hnv : hasSub vSep n = false)
    (hfresh : readFile s0 (latestPath n) = none)
    (hglob : ∀ f ∈ keys s0, versionsGlob n f = false) :
    ∃ s1 sN, addTemplate s0 n c = .ok s1 ∧
      loadTemplate s1 n = .ok ⟨n, 1, c⟩ ∧
      applyUpdates s1 n cs = .ok sN ∧
      loadTemplate sN n = .ok ⟨n, 1 + cs.length, cs.getLastD c⟩ ∧
      listVersions sN n = (List.range' 1 (1 + cs.length)).map natStr := by
  obtain ⟨s1, ha, hinv1⟩ := c6_add s0 n c hn hne hfresh hglob
  obtain ⟨sN, hu, hinvN⟩ := c6_updates hglob cs hinv1
  rw [Nat.zero_add] at hinvN
  have hc : 1 + cs.length = cs.length + 1 := Nat.add_comm 1 cs.length
  refine ⟨s1, sN, ha, ?_, hu, ?_, ?_⟩
  · unfold loadTemplate
    rw [hinv1.2]
  · unfold loadTemplate
    rw [hinvN.2, hc]
  · rw [c6_listVersions hnv hglob hinvN, hc]

/-- C6 amended, witnessed: create "q" then update twice; the latest version
is 3 and the versions listing is exactly ["1", "2", "3"]. -/
theorem c6_amended_witness :
    ∃ s1 sN, addTemplate [] (str "q") (str "A") = .ok s1 ∧
      loadTemplate s1 (str "q") = .ok ⟨str "q", 1, str "A"⟩ ∧
      applyUpdates s1 (str "q") [str "B", str "C"] = .ok sN ∧
      loadTemplate sN (str "q") = .ok ⟨str "q", 3, str "C"⟩ ∧
      listVersions sN (str "q") = [str "1", str "2", str "3"] :=
  c6_amended [] (str "q") (str "A") [str "B", str "C"] (by decide) (by decide)
    (by decide) rfl (by simp [keys])

/-- C9 amended, witnessed at the two-template store: the entry for "a" is
listed and the listed names are distinct. -/
theorem c9_amended_witness :
    (str "a", 1) ∈ listTemplates storeAB ∧
    ((listTemplates storeAB).map Prod.fst).Nodup := by
  have hwf : ∀ p ∈ storeAB, WFfile p := by
    intro p hp
    simp only [storeAB, List.mem_cons, List.not_mem_nil, or_false] at hp
    rcases hp with rfl | rfl | rfl | rfl
    · exact Or.inl ⟨str "a", ⟨str "a", 1, str "A"⟩, rfl, by decide, rfl, rfl⟩
    · exact Or.inr (Or.inl (by decide))
    · exact Or.inl ⟨str "ab", ⟨str "ab", 1, str "B"⟩, rfl, by decide, rfl, rfl⟩
    · exact Or.inr (Or.inl (by decide))
  have h := c9_amended storeAB (by decide) hwf
  exact ⟨(h.1 (str "a") 1).mpr ⟨by decide, ⟨str "a", 1, str "A"⟩, by decide, rfl, rfl⟩,
    h.2⟩
